import Mathlib

/-!
Shallow embedding of the build pipeline of `src/setup.py` (NYC restaurant
dashboard): sanitization and deduplication of restaurant inspection rows,
consolidation of subway stops into station complexes, cuisine classification
through an exact-match override table followed by an ordered rule cascade,
nearest-station assignment by squared planar distance, and the final
station-by-cuisine aggregation.  Tables become lists of records, SQL rows
become structures, DOUBLE columns become rationals, and the regex patterns of
the rule cascade become abstract Boolean predicates on the lowercased name.
-/

set_option maxRecDepth 4000

/-! ### String helpers

`sqlTrim` models the DuckDB `TRIM` function (strip leading and trailing spaces) and
`lowerAscii` models `LOWER`, both written directly on the character list so
that they compute by kernel reduction. -/

/-- `LOWER`: lowercase every character of the string. -/
def lowerAscii (s : String) : String := ⟨s.data.map Char.toLower⟩

/-- `TRIM`: strip leading and trailing space characters. -/
def sqlTrim (s : String) : String :=
  ⟨((s.data.dropWhile (· = ' ')).reverse.dropWhile (· = ' ')).reverse⟩

/-- The normalization `LOWER(TRIM(name))` used by the override-table join. -/
def normName (s : String) : String := lowerAscii (sqlTrim s)

/-! ### Distinct keys of a grouping

`distinctKeys l` is the set of values occurring in `l`, as a duplicate-free
list; it models the set of group keys produced by a SQL `GROUP BY` (or by
`PARTITION BY`). -/

def distinctKeys {κ : Type} [DecidableEq κ] : List κ → List κ
  | [] => []
  | a :: l => if a ∈ distinctKeys l then distinctKeys l else a :: distinctKeys l

/-! ### Data model

One structure per table of `setup.py`, with the columns each stage reads.
`Latitude`/`Longitude` of a raw restaurant row are optional (the CSV may hold
NULLs); all other numeric columns are modelled as rationals standing for the
DOUBLE values, and the inspection date as an integer ordinal. -/

structure RawRestaurantRow where
  RestaurantName : String
  BusinessAddress : String
  Borough : String
  Postcode : String
  Latitude : Option ℚ
  Longitude : Option ℚ
  InspectedOn : Int
deriving DecidableEq

structure RawStationStop where
  complexId : String
  stopName : String
  gtfsLatitude : ℚ
  gtfsLongitude : ℚ
  daytimeRoutes : String
deriving DecidableEq

structure CuisineLookupEntry where
  restaurant_name : String
  cuisine : String
deriving DecidableEq

structure ClassifiedRestaurant where
  restaurant_name : String
  address : String
  borough : String
  postcode : String
  latitude : ℚ
  longitude : ℚ
  cuisine : String
deriving DecidableEq

structure StationComplex where
  complex_id : String
  stop_name : String
  latitude : ℚ
  longitude : ℚ
  all_routes : String
deriving DecidableEq

structure RestaurantWithStation where
  restaurant_name : String
  address : String
  borough : String
  postcode : String
  latitude : ℚ
  longitude : ℚ
  cuisine : String
  station_name : String
  station_lat : ℚ
  station_lon : ℚ
  station_routes : String
deriving DecidableEq

structure StationCuisineCount where
  station_name : String
  station_lat : ℚ
  station_lon : ℚ
  station_routes : String
  cuisine : String
  restaurant_count : Nat
deriving DecidableEq

/-- One entry of the `CUISINES` rule table: a label paired with the matching
predicate of its regex pattern, applied to the lowercased restaurant name. -/
abbrev CuisineRule := String × (String → Bool)

/-! ### Sanitization and restaurant deduplication

The `WHERE` clause of the `deduped` CTE keeps rows whose latitude and
longitude are both non-NULL and non-zero; `ROW_NUMBER() OVER (PARTITION BY
RestaurantName, BusinessAddress ORDER BY InspectedOn DESC)` with the `rn = 1`
filter keeps, per (name, address) group, one row of maximal inspection date
(ties broken toward the earlier input row). -/

def hasValidCoords (r : RawRestaurantRow) : Bool :=
  decide (r.Latitude ≠ none) && decide (r.Longitude ≠ none) &&
  decide (r.Latitude ≠ some 0) && decide (r.Longitude ≠ some 0)

def sanitized (rows : List RawRestaurantRow) : List RawRestaurantRow :=
  rows.filter hasValidCoords

/-- The `PARTITION BY RestaurantName, BusinessAddress` key. -/
def groupKey (r : RawRestaurantRow) : String × String :=
  (r.RestaurantName, r.BusinessAddress)

/-- Of two rows, keep the one with the later inspection date (the earlier
input row on a date tie). -/
def laterInspected (a b : RawRestaurantRow) : RawRestaurantRow :=
  if a.InspectedOn < b.InspectedOn then b else a

/-- The row a group keeps: the `rn = 1` row of `ORDER BY InspectedOn DESC`. -/
def mostRecent : List RawRestaurantRow → Option RawRestaurantRow
  | [] => none
  | r :: rs => some (rs.foldl laterInspected r)

/-- All sanitized rows of the (name, address) group `k`. -/
def restaurantGroup (raw : List RawRestaurantRow) (k : String × String) :
    List RawRestaurantRow :=
  (sanitized raw).filter fun r => decide (groupKey r = k)

def dedupedRow (raw : List RawRestaurantRow) (k : String × String) :
    Option RawRestaurantRow :=
  mostRecent (restaurantGroup raw k)

/-! ### Cuisine classification

`COALESCE(cl.cuisine, CASE ... END, Unclassified)` after the
`LEFT JOIN cuisine_lookup cl ON LOWER(TRIM(d.RestaurantName)) =
LOWER(TRIM(cl.restaurant_name))`: each lookup entry whose normalized name
equals the normalized name of the row produces one output row labelled with the cuisine
of that entry; with no matching entry the single output row is labelled by
the first matching rule of the ordered cascade, else `Unclassified`. -/

def overrideMatches (lookup : List CuisineLookupEntry) (name : String) :
    List CuisineLookupEntry :=
  lookup.filter fun e => decide (normName name = normName e.restaurant_name)

/-- The label of the first rule of the cascade whose pattern matches the
lowercased name — the generated `CASE WHEN ... THEN ...` chain. -/
def firstRuleLabel (rules : List CuisineRule) (loweredName : String) :
    Option String :=
  (rules.find? fun rule => rule.2 loweredName).map fun rule => rule.1

def mkClassified (d : RawRestaurantRow) (c : String) : ClassifiedRestaurant :=
  { restaurant_name := d.RestaurantName
    address := d.BusinessAddress
    borough := d.Borough
    postcode := d.Postcode
    latitude := d.Latitude.getD 0
    longitude := d.Longitude.getD 0
    cuisine := c }

def classifyRow (lookup : List CuisineLookupEntry) (rules : List CuisineRule)
    (d : RawRestaurantRow) : List ClassifiedRestaurant :=
  if (overrideMatches lookup d.RestaurantName).isEmpty then
    [mkClassified d
      ((firstRuleLabel rules (lowerAscii d.RestaurantName)).getD "Unclassified")]
  else
    (overrideMatches lookup d.RestaurantName).map fun e => mkClassified d e.cuisine

def classifyGroup (raw : List RawRestaurantRow) (lookup : List CuisineLookupEntry)
    (rules : List CuisineRule) (k : String × String) : List ClassifiedRestaurant :=
  match dedupedRow raw k with
  | none => []
  | some d => classifyRow lookup rules d

/-- The `classified_restaurants` table. -/
def classified_restaurants (raw : List RawRestaurantRow)
    (lookup : List CuisineLookupEntry) (rules : List CuisineRule) :
    List ClassifiedRestaurant :=
  (distinctKeys ((sanitized raw).map groupKey)).flatMap
    (classifyGroup raw lookup rules)

/-! ### Station consolidation

`GROUP BY "Complex ID"` with `FIRST("Stop Name")`, `AVG` of the coordinates,
and `STRING_AGG(DISTINCT ...)` of the route strings. -/

/-- `STRING_AGG(DISTINCT x)` with a space separator: the distinct route strings,
sorted ascending, joined by single spaces. -/
def routesAgg (members : List RawStationStop) : String :=
  String.intercalate " "
    (List.insertionSort (α := String) (· ≤ ·)
      (distinctKeys (members.map fun s => s.daytimeRoutes)))

def consolidateComplex (stops : List RawStationStop) (cid : String) :
    List StationComplex :=
  match stops.filter (fun s => decide (s.complexId = cid)) with
  | [] => []
  | g :: gs =>
    [{ complex_id := cid
       stop_name := g.stopName
       latitude := ((g :: gs).map fun s => s.gtfsLatitude).sum / ((g :: gs).length : ℚ)
       longitude := ((g :: gs).map fun s => s.gtfsLongitude).sum / ((g :: gs).length : ℚ)
       all_routes := routesAgg (g :: gs) }]

/-- The `subway_stations` table: one consolidated complex per distinct
`Complex ID`. -/
def subway_stations (stops : List RawStationStop) : List StationComplex :=
  (distinctKeys (stops.map fun s => s.complexId)).flatMap
    (consolidateComplex stops)

/-! ### Nearest-station assignment

The `LATERAL` subquery orders the full station table by
`(r.lat - lat)² + (r.lon - lon)²` and takes the first row; a left row joined
to an empty subquery result produces no output row. -/

def sqDist (rlat rlon slat slon : ℚ) : ℚ :=
  (rlat - slat) * (rlat - slat) + (rlon - slon) * (rlon - slon)

/-- Of two stations, keep whichever is nearer to the restaurant (the earlier
one on a tie). -/
def nearer (r : ClassifiedRestaurant) (a b : StationComplex) : StationComplex :=
  if sqDist r.latitude r.longitude b.latitude b.longitude <
      sqDist r.latitude r.longitude a.latitude a.longitude then b else a

def nearestStation (r : ClassifiedRestaurant) :
    List StationComplex → Option StationComplex
  | [] => none
  | s :: ss => some (ss.foldl (nearer r) s)

def assignStation (r : ClassifiedRestaurant) (s : StationComplex) :
    RestaurantWithStation :=
  { restaurant_name := r.restaurant_name
    address := r.address
    borough := r.borough
    postcode := r.postcode
    latitude := r.latitude
    longitude := r.longitude
    cuisine := r.cuisine
    station_name := s.stop_name
    station_lat := s.latitude
    station_lon := s.longitude
    station_routes := s.all_routes }

/-- The `restaurants_with_station` table. -/
def restaurants_with_station (rs : List ClassifiedRestaurant)
    (stations : List StationComplex) : List RestaurantWithStation :=
  rs.flatMap fun r =>
    match nearestStation r stations with
    | none => []
    | some s => [assignStation r s]

/-! ### Station-by-cuisine aggregation -/

/-- The `GROUP BY station_name, station_lat, station_lon, station_routes,
cuisine` key. -/
def countKey (x : RestaurantWithStation) : String × ℚ × ℚ × String × String :=
  (x.station_name, x.station_lat, x.station_lon, x.station_routes, x.cuisine)

/-- The `station_cuisine_counts` table. -/
def station_cuisine_counts (rows : List RestaurantWithStation) :
    List StationCuisineCount :=
  (distinctKeys (rows.map countKey)).map fun k =>
    { station_name := k.1
      station_lat := k.2.1
      station_lon := k.2.2.1
      station_routes := k.2.2.2.1
      cuisine := k.2.2.2.2
      restaurant_count := (rows.filter fun x => decide (countKey x = k)).length }

/-! ### Concrete inputs used by witnesses and counterexamples -/

def witnessDiner : ClassifiedRestaurant :=
  { restaurant_name := "Corner Diner", address := "3 Broadway", borough := "Manhattan",
    postcode := "10001", latitude := 2, longitude := 2, cuisine := "Unclassified" }

def stationOrigin : StationComplex :=
  { complex_id := "1", stop_name := "Origin St", latitude := 0, longitude := 0,
    all_routes := "A" }

def stationEast : StationComplex :=
  { complex_id := "2", stop_name := "East St", latitude := 5, longitude := 0,
    all_routes := "B" }

def stationNorth : StationComplex :=
  { complex_id := "3", stop_name := "North St", latitude := 0, longitude := 5,
    all_routes := "C" }

def witnessStations : List StationComplex := [stationOrigin, stationEast, stationNorth]

def strandedRestaurant : ClassifiedRestaurant :=
  { restaurant_name := "Solo Diner", address := "2 Avenue A", borough := "Manhattan",
    postcode := "10009", latitude := 1, longitude := 1, cuisine := "Unclassified" }

def medGrill : RawRestaurantRow :=
  { RestaurantName := "Mediterranean Grill", BusinessAddress := "9 5th Avenue",
    Borough := "Manhattan", Postcode := "10003", Latitude := some 7,
    Longitude := some 8, InspectedOn := 100 }

def overrideTable : List CuisineLookupEntry :=
  [{ restaurant_name := " MEDITERRANEAN grill ", cuisine := "Greek/Mediterranean" }]

/-- A one-rule cascade whose pattern matches every name, to exercise override
precedence over a rule that would otherwise match. -/
def alwaysRules : List CuisineRule := [("Italian", fun _ => true)]

def c3pre : List CuisineRule := [("Chinese", fun _ => false)]

def c3post : List CuisineRule := [("Italian", fun _ => true)]

def c3pat : String → Bool := fun s => s == "joe pizza palace"

def c3rules : List CuisineRule := c3pre ++ ("Pizza", c3pat) :: c3post

def pizzaShop : RawRestaurantRow :=
  { RestaurantName := "JOE Pizza Palace", BusinessAddress := "1 Bleecker Street",
    Borough := "Manhattan", Postcode := "10012", Latitude := some 2,
    Longitude := some 3, InspectedOn := 7 }

def joesJan : RawRestaurantRow :=
  { RestaurantName := "Joes Pizza", BusinessAddress := "7 Carmine Street",
    Borough := "Manhattan", Postcode := "10014", Latitude := some 3,
    Longitude := some 4, InspectedOn := 20240101 }

def joesJun : RawRestaurantRow :=
  { RestaurantName := "Joes Pizza", BusinessAddress := "7 Carmine Street",
    Borough := "Brooklyn", Postcode := "11201", Latitude := some 5,
    Longitude := some 6, InspectedOn := 20240601 }

def rowDupKeyed : RawRestaurantRow :=
  { RestaurantName := "Acme Cafe", BusinessAddress := "1 Main Street",
    Borough := "Queens", Postcode := "11101", Latitude := some 1,
    Longitude := some 1, InspectedOn := 5 }

/-- An override table with two entries carrying the same normalized key. -/
def dupLookup : List CuisineLookupEntry :=
  [{ restaurant_name := "Acme Cafe", cuisine := "Diner" },
   { restaurant_name := "ACME CAFE", cuisine := "Coffee" }]

def stopUnionN : RawStationStop :=
  { complexId := "101", stopName := "Union Sq North", gtfsLatitude := 40,
    gtfsLongitude := -73, daytimeRoutes := "A" }

def stopUnionS : RawStationStop :=
  { complexId := "101", stopName := "Union Sq South", gtfsLatitude := 41,
    gtfsLongitude := -74, daytimeRoutes := "C" }

theorem mem_distinctKeys {κ : Type} [DecidableEq κ] (a : κ) (l : List κ) :
    a ∈ distinctKeys l ↔ a ∈ l := by
  induction l with
  | nil => simp [distinctKeys]
  | cons b l ih =>
    simp only [distinctKeys]
    by_cases hb : b ∈ distinctKeys l
    · rw [if_pos hb, ih, List.mem_cons]
      constructor
      · exact Or.inr
      · rintro (rfl | h)
        · exact ih.mp hb
        · exact h
    · rw [if_neg hb, List.mem_cons, List.mem_cons, ih]

theorem distinctKeys_nodup {κ : Type} [DecidableEq κ] (l : List κ) :
    (distinctKeys l).Nodup := by
  induction l with
  | nil => simp [distinctKeys]
  | cons b l ih =>
    simp only [distinctKeys]
    by_cases hb : b ∈ distinctKeys l
    · rwa [if_pos hb]
    · rw [if_neg hb]
      exact List.nodup_cons.mpr ⟨hb, ih⟩

/-! ### Generic facts about keyed `flatMap` pipelines

Each grouped stage of the pipeline has the shape
`(distinctKeys keys).flatMap F` where every record produced by `F k` carries
the group key `k`.  The lemmas below isolate the consequences used by the
claims: an output record belongs to the group of its own key, filtering the output
on a key recovers the group of that key, key-wise singleton groups give pairwise
distinct keys, and group sizes sum to the input size. -/

section Grouping

variable {α κ : Type}

theorem mem_flatMap_keyed (F : κ → List α) (keyOf : α → κ) (ks : List κ)
    (hkey : ∀ k ∈ ks, ∀ c ∈ F k, keyOf c = k) (c : α) (hc : c ∈ ks.flatMap F) :
    c ∈ F (keyOf c) := by
  rcases List.mem_flatMap.mp hc with ⟨k, hk, hcF⟩
  rwa [hkey k hk c hcF]

theorem flatMap_keyed_filter [DecidableEq κ] (F : κ → List α) (keyOf : α → κ) :
    ∀ ks : List κ, ks.Nodup → (∀ k ∈ ks, ∀ c ∈ F k, keyOf c = k) →
      ∀ k ∈ ks, (ks.flatMap F).filter (fun c => decide (keyOf c = k)) = F k := by
  intro ks
  induction ks with
  | nil =>
    intro _ _ k hk
    cases hk
  | cons k0 ks ih =>
    intro hnd hkey k hk
    rw [List.flatMap_cons, List.filter_append]
    rcases List.mem_cons.mp hk with rfl | hk'
    · have h1 : (F k).filter (fun c => decide (keyOf c = k)) = F k := by
        apply List.filter_eq_self.mpr
        intro c hc
        simp [hkey k (List.mem_cons_self _ _) c hc]
      have h2 : (ks.flatMap F).filter (fun c => decide (keyOf c = k)) = [] := by
        apply List.filter_eq_nil_iff.mpr
        intro c hc
        rcases List.mem_flatMap.mp hc with ⟨k', hk', hcF⟩
        have hkc : keyOf c = k' := hkey k' (List.mem_cons_of_mem _ hk') c hcF
        have hne : k' ≠ k := fun he => (List.nodup_cons.mp hnd).1 (he ▸ hk')
        simp [hkc, hne]
      rw [h1, h2, List.append_nil]
    · have h0 : (F k0).filter (fun c => decide (keyOf c = k)) = [] := by
        apply List.filter_eq_nil_iff.mpr
        intro c hc
        have hkc : keyOf c = k0 := hkey k0 (List.mem_cons_self _ _) c hc
        have hne : k0 ≠ k := fun he => (List.nodup_cons.mp hnd).1 (he ▸ hk')
        simp [hkc, hne]
      rw [h0, List.nil_append]
      exact ih (List.nodup_cons.mp hnd).2
        (fun k' h' => hkey k' (List.mem_cons_of_mem _ h')) k hk'

theorem nodup_map_flatMap_keyed (F : κ → List α) (keyOf : α → κ) :
    ∀ ks : List κ, ks.Nodup → (∀ k ∈ ks, ∀ c ∈ F k, keyOf c = k) →
      (∀ k ∈ ks, (F k).length ≤ 1) → ((ks.flatMap F).map keyOf).Nodup := by
  intro ks
  induction ks with
  | nil =>
    intro _ _ _
    simp
  | cons k0 ks ih =>
    intro hnd hkey hlen
    rw [List.flatMap_cons, List.map_append]
    apply List.Nodup.append
    · rcases hF : F k0 with _ | ⟨c, cs⟩
      · simp
      · have : (c :: cs).length ≤ 1 := hF ▸ hlen k0 (List.mem_cons_self _ _)
        have hcs : cs = [] := by
          cases cs with
          | nil => rfl
          | cons d ds => simp at this
        subst hcs
        simp
    · exact ih (List.nodup_cons.mp hnd).2
        (fun k' h' => hkey k' (List.mem_cons_of_mem _ h'))
        (fun k' h' => hlen k' (List.mem_cons_of_mem _ h'))
    · intro x hx hx'
      rcases List.mem_map.mp hx with ⟨c, hc, rfl⟩
      rcases List.mem_map.mp hx' with ⟨c', hc', he⟩
      rcases List.mem_flatMap.mp hc' with ⟨k', hk', hcF'⟩
      have h1 : keyOf c = k0 := hkey k0 (List.mem_cons_self _ _) c hc
      have h2 : keyOf c' = k' := hkey k' (List.mem_cons_of_mem _ hk') c' hcF'
      exact (List.nodup_cons.mp hnd).1 (h1 ▸ he ▸ h2 ▸ hk')

theorem sum_map_add_nat (f g : κ → Nat) :
    ∀ r : List κ, (r.map fun k => f k + g k).sum = (r.map f).sum + (r.map g).sum := by
  intro r
  induction r with
  | nil => rfl
  | cons a r ih =>
    simp only [List.map_cons, List.sum_cons, ih]
    omega

theorem sum_indicator_one [DecidableEq κ] (a : κ) :
    ∀ r : List κ, r.Nodup → a ∈ r →
      (r.map fun k => if a = k then 1 else 0).sum = 1 := by
  intro r
  induction r with
  | nil =>
    intro _ h
    cases h
  | cons b r ih =>
    intro hnd hmem
    rcases List.mem_cons.mp hmem with rfl | h
    · have hnot : a ∉ r := (List.nodup_cons.mp hnd).1
      have hzero : (r.map fun k => if a = k then 1 else 0).sum = 0 := by
        rw [List.sum_eq_zero]
        intro x hx
        rcases List.mem_map.mp hx with ⟨k, hk, rfl⟩
        have : a ≠ k := fun he => hnot (he ▸ hk)
        simp [this]
      simp [hzero]
    · have hne : a ≠ b := fun he => (List.nodup_cons.mp hnd).1 (he ▸ h)
      simp only [List.map_cons, List.sum_cons, if_neg hne]
      rw [ih (List.nodup_cons.mp hnd).2 h]

theorem sum_indicator_zero [DecidableEq κ] (a : κ) (r : List κ) (ha : a ∉ r) :
    (r.map fun k => if a = k then 1 else 0).sum = 0 := by
  rw [List.sum_eq_zero]
  intro x hx
  rcases List.mem_map.mp hx with ⟨k, hk, rfl⟩
  have : a ≠ k := fun he => ha (he ▸ hk)
  simp [this]

theorem length_eq_sum_group_sizes [DecidableEq κ] (key : α → κ) :
    ∀ l : List α,
      ((distinctKeys (l.map key)).map
        (fun k => (l.filter fun x => decide (key x = k)).length)).sum = l.length := by
  intro l
  induction l with
  | nil => simp [distinctKeys]
  | cons x t ih =>
    have hfilter : ∀ k : κ, ((x :: t).filter fun y => decide (key y = k)).length
        = (if key x = k then 1 else 0) + (t.filter fun y => decide (key y = k)).length := by
      intro k
      rw [List.filter_cons]
      by_cases h : key x = k <;> simp [h, Nat.add_comm]
    have hsplit : ∀ r : List κ,
        (r.map fun k => ((x :: t).filter fun y => decide (key y = k)).length).sum
        = (r.map fun k => if key x = k then 1 else 0).sum
          + (r.map fun k => (t.filter fun y => decide (key y = k)).length).sum := by
      intro r
      rw [← sum_map_add_nat]
      congr 1
      exact List.map_congr_left fun k _ => hfilter k
    simp only [List.map_cons, distinctKeys]
    by_cases hx : key x ∈ distinctKeys (t.map key)
    · rw [if_pos hx, hsplit]
      rw [sum_indicator_one (key x) _ (distinctKeys_nodup _) hx, ih]
      simp [Nat.add_comm]
    · rw [if_neg hx]
      simp only [List.map_cons, List.sum_cons]
      rw [hsplit]
      rw [sum_indicator_zero (key x) _ hx, ih]
      have hxnot : key x ∉ t.map key := fun h => hx ((mem_distinctKeys _ _).mpr h)
      have hnil : t.filter (fun y => decide (key y = key x)) = [] := by
        apply List.filter_eq_nil_iff.mpr
        intro y hy
        have : key y ≠ key x := fun he => hxnot (he ▸ List.mem_map_of_mem key hy)
        simp [this]
      rw [hfilter (key x), hnil]
      simp [Nat.add_comm]

end Grouping

/-! ### Theorems -/

/-! ### Stage lemmas: deduplication -/

theorem laterInspected_cases (a b : RawRestaurantRow) :
    laterInspected a b = a ∨ laterInspected a b = b := by
  unfold laterInspected
  by_cases h : a.InspectedOn < b.InspectedOn
  · exact Or.inr (if_pos h)
  · exact Or.inl (if_neg h)

theorem foldl_laterInspected_mem :
    ∀ (rs : List RawRestaurantRow) (r : RawRestaurantRow),
      rs.foldl laterInspected r ∈ r :: rs := by
  intro rs
  induction rs with
  | nil =>
    intro r
    exact List.mem_singleton.mpr rfl
  | cons t ts ih =>
    intro r
    rw [List.foldl_cons]
    rcases List.mem_cons.mp (ih (laterInspected r t)) with h | h
    · rcases laterInspected_cases r t with hr | ht
      · rw [h, hr]
        exact List.mem_cons_self _ _
      · rw [h, ht]
        exact List.mem_cons_of_mem _ (List.mem_cons_self _ _)
    · exact List.mem_cons_of_mem _ (List.mem_cons_of_mem _ h)

theorem mostRecent_mem {l : List RawRestaurantRow} {d : RawRestaurantRow}
    (h : mostRecent l = some d) : d ∈ l := by
  cases l with
  | nil => cases h
  | cons r rs =>
    have hd : rs.foldl laterInspected r = d := Option.some.inj h
    exact hd ▸ foldl_laterInspected_mem rs r

theorem mostRecent_of_ne_nil {l : List RawRestaurantRow} (h : l ≠ []) :
    ∃ d, mostRecent l = some d := by
  cases l with
  | nil => exact absurd rfl h
  | cons r rs => exact ⟨rs.foldl laterInspected r, rfl⟩

theorem restaurantGroup_key {raw : List RawRestaurantRow} {k : String × String}
    {r : RawRestaurantRow} (h : r ∈ restaurantGroup raw k) : groupKey r = k := by
  have := (List.mem_filter.mp h).2
  exact of_decide_eq_true this

theorem dedupedRow_key {raw : List RawRestaurantRow} {k : String × String}
    {d : RawRestaurantRow} (h : dedupedRow raw k = some d) : groupKey d = k :=
  restaurantGroup_key (mostRecent_mem h)

/-! ### Stage lemmas: classification -/

theorem classifyRow_fields {lookup : List CuisineLookupEntry}
    {rules : List CuisineRule} {d : RawRestaurantRow} {c : ClassifiedRestaurant}
    (h : c ∈ classifyRow lookup rules d) :
    c.restaurant_name = d.RestaurantName ∧ c.address = d.BusinessAddress ∧
    c.borough = d.Borough ∧ c.postcode = d.Postcode ∧
    c.latitude = d.Latitude.getD 0 ∧ c.longitude = d.Longitude.getD 0 := by
  unfold classifyRow at h
  by_cases he : (overrideMatches lookup d.RestaurantName).isEmpty
  · rw [if_pos he] at h
    rw [List.mem_singleton.mp h]
    exact ⟨rfl, rfl, rfl, rfl, rfl, rfl⟩
  · rw [if_neg he] at h
    rcases List.mem_map.mp h with ⟨e, _, rfl⟩
    exact ⟨rfl, rfl, rfl, rfl, rfl, rfl⟩

theorem classifyGroup_key {raw : List RawRestaurantRow}
    {lookup : List CuisineLookupEntry} {rules : List CuisineRule}
    {k : String × String} {c : ClassifiedRestaurant}
    (h : c ∈ classifyGroup raw lookup rules k) :
    (c.restaurant_name, c.address) = k := by
  unfold classifyGroup at h
  cases hd : dedupedRow raw k with
  | none =>
    rw [hd] at h
    cases h
  | some d =>
    rw [hd] at h
    have hf := classifyRow_fields h
    have hk := dedupedRow_key hd
    rw [hf.1, hf.2.1]
    exact hk

/-- Decomposition of membership in `classified_restaurants`: every output row
comes from the surviving (most recently inspected) row of its own
(name, address) group. -/
theorem classified_mem_decomp {raw : List RawRestaurantRow}
    {lookup : List CuisineLookupEntry} {rules : List CuisineRule}
    {c : ClassifiedRestaurant}
    (hc : c ∈ classified_restaurants raw lookup rules) :
    ∃ d, dedupedRow raw (c.restaurant_name, c.address) = some d ∧
      c ∈ classifyRow lookup rules d := by
  have h := mem_flatMap_keyed (classifyGroup raw lookup rules)
    (fun c => (c.restaurant_name, c.address)) _
    (fun k _ c hc => classifyGroup_key hc) c hc
  unfold classifyGroup at h
  cases hd : dedupedRow raw (c.restaurant_name, c.address) with
  | none =>
    rw [hd] at h
    cases h
  | some d =>
    rw [hd] at h
    exact ⟨d, rfl, h⟩

/-! ### Stage lemmas: nearest-station fold -/

theorem nearer_le_left (r : ClassifiedRestaurant) (a b : StationComplex) :
    sqDist r.latitude r.longitude (nearer r a b).latitude (nearer r a b).longitude ≤
      sqDist r.latitude r.longitude a.latitude a.longitude := by
  unfold nearer
  by_cases h : sqDist r.latitude r.longitude b.latitude b.longitude <
      sqDist r.latitude r.longitude a.latitude a.longitude
  · rw [if_pos h]
    exact le_of_lt h
  · rw [if_neg h]

theorem nearer_le_right (r : ClassifiedRestaurant) (a b : StationComplex) :
    sqDist r.latitude r.longitude (nearer r a b).latitude (nearer r a b).longitude ≤
      sqDist r.latitude r.longitude b.latitude b.longitude := by
  unfold nearer
  by_cases h : sqDist r.latitude r.longitude b.latitude b.longitude <
      sqDist r.latitude r.longitude a.latitude a.longitude
  · rw [if_pos h]
  · rw [if_neg h]
    exact le_of_not_lt h

theorem foldl_nearer_min (r : ClassifiedRestaurant) :
    ∀ (ss : List StationComplex) (s0 s1 : StationComplex), s1 ∈ s0 :: ss →
      sqDist r.latitude r.longitude (ss.foldl (nearer r) s0).latitude
          (ss.foldl (nearer r) s0).longitude ≤
        sqDist r.latitude r.longitude s1.latitude s1.longitude := by
  intro ss
  induction ss with
  | nil =>
    intro s0 s1 h
    obtain rfl := List.mem_singleton.mp h
    exact le_refl _
  | cons t ts ih =>
    intro s0 s1 h
    rw [List.foldl_cons]
    rcases List.mem_cons.mp h with rfl | h'
    · exact le_trans (ih (nearer r s1 t) (nearer r s1 t) (List.mem_cons_self _ _))
        (nearer_le_left r s1 t)
    · rcases List.mem_cons.mp h' with rfl | h''
      · exact le_trans (ih (nearer r s0 s1) (nearer r s0 s1) (List.mem_cons_self _ _))
          (nearer_le_right r s0 s1)
      · exact ih (nearer r s0 t) s1 (List.mem_cons_of_mem _ h'')

/-- Claim C1: for every row of the assignment output, the station recorded in
the row minimizes the squared planar distance `(Δlat)² + (Δlon)²` over the
entire consolidated station set: no station of the set is strictly closer to
the restaurant than the assigned one. -/
theorem assignment_station_minimizes_sqdist (rs : List ClassifiedRestaurant)
    (stations : List StationComplex) (row : RestaurantWithStation)
    (hrow : row ∈ restaurants_with_station rs stations)
    (s1 : StationComplex) (hs1 : s1 ∈ stations) :
    sqDist row.latitude row.longitude row.station_lat row.station_lon ≤
      sqDist row.latitude row.longitude s1.latitude s1.longitude := by
  rcases List.mem_flatMap.mp hrow with ⟨r, _, hm⟩
  cases hns : nearestStation r stations with
  | none =>
    rw [hns] at hm
    cases hm
  | some s =>
    rw [hns] at hm
    obtain rfl := List.mem_singleton.mp hm
    cases stations with
    | nil => cases hs1
    | cons s0 ss =>
      have hfold : ss.foldl (nearer r) s0 = s := Option.some.inj hns
      have hmin := foldl_nearer_min r ss s0 s1 hs1
      rw [hfold] at hmin
      exact hmin

/-- Witness for C1: a restaurant at (2,2) among stations at (0,0), (5,0) and
(0,5) is assigned the (0,0) station, which is no farther than the (5,0) one. -/
theorem assignment_station_minimizes_sqdist_witness :
    assignStation witnessDiner stationOrigin ∈
        restaurants_with_station [witnessDiner] witnessStations ∧
      stationEast ∈ witnessStations ∧
      sqDist (assignStation witnessDiner stationOrigin).latitude
          (assignStation witnessDiner stationOrigin).longitude
          (assignStation witnessDiner stationOrigin).station_lat
          (assignStation witnessDiner stationOrigin).station_lon ≤
        sqDist (assignStation witnessDiner stationOrigin).latitude
          (assignStation witnessDiner stationOrigin).longitude
          stationEast.latitude stationEast.longitude :=
  ⟨by with_unfolding_all decide, by decide,
    assignment_station_minimizes_sqdist [witnessDiner] witnessStations
      (assignStation witnessDiner stationOrigin)
      (by with_unfolding_all decide) stationEast (by decide)⟩

/-- Claim C8 counterexample: with an empty consolidated station set and a
nonempty classified-restaurant input, the nearest-station stage completes and
silently emits an empty assignment collection — no error is signalled. -/
theorem empty_station_set_counterexample :
    restaurants_with_station [strandedRestaurant] [] = [] ∧
      ([strandedRestaurant] : List ClassifiedRestaurant) ≠ [] :=
  ⟨rfl, by decide⟩

/-- Claim C8 amended: with an empty consolidated station set, the
nearest-station stage completes normally and emits the empty assignment
collection (every restaurant is silently dropped by the lateral join; no
error and no placeholder assignments). -/
theorem empty_station_set_yields_no_assignments (rs : List ClassifiedRestaurant) :
    restaurants_with_station rs [] = [] := by
  unfold restaurants_with_station
  induction rs with
  | nil => rfl
  | cons r rs ih =>
    rw [List.flatMap_cons, ih, List.append_nil]
    rfl

/-- Claim C6: the `restaurant_count` values of the station-cuisine count
table sum to the number of restaurant-station assignment rows; every
assignment is counted in exactly one group. -/
theorem station_cuisine_counts_conserve_total (rows : List RestaurantWithStation) :
    ((station_cuisine_counts rows).map fun g => g.restaurant_count).sum
      = rows.length := by
  unfold station_cuisine_counts
  rw [List.map_map]
  exact length_eq_sum_group_sizes countKey rows

/-- Claim C2: a restaurant whose trimmed, case-folded name has exactly one
matching entry in the override table is emitted with the cuisine label of that entry, for every rule cascade whatsoever. -/
theorem override_entry_wins (raw : List RawRestaurantRow)
    (lookup : List CuisineLookupEntry) (rules : List CuisineRule)
    (c : ClassifiedRestaurant) (hc : c ∈ classified_restaurants raw lookup rules)
    (e : CuisineLookupEntry)
    (he : overrideMatches lookup c.restaurant_name = [e]) :
    c.cuisine = e.cuisine := by
  rcases classified_mem_decomp hc with ⟨d, _, hcr⟩
  have hf := classifyRow_fields hcr
  rw [hf.1] at he
  unfold classifyRow at hcr
  rw [he] at hcr
  simp only [List.isEmpty_cons, Bool.false_eq_true, if_false, List.map_cons,
    List.map_nil] at hcr
  obtain rfl := List.mem_singleton.mp hcr
  rfl

/-- Witness for C2: `"Mediterranean Grill"` has an override entry mapping it
to `"Greek/Mediterranean"`, which wins over an always-matching rule. -/
theorem override_entry_wins_witness :
    mkClassified medGrill "Greek/Mediterranean" ∈
        classified_restaurants [medGrill] overrideTable alwaysRules ∧
      overrideMatches overrideTable
          (mkClassified medGrill "Greek/Mediterranean").restaurant_name
        = [{ restaurant_name := " MEDITERRANEAN grill ",
             cuisine := "Greek/Mediterranean" }] ∧
      (mkClassified medGrill "Greek/Mediterranean").cuisine = "Greek/Mediterranean" :=
  ⟨by decide, by decide,
    override_entry_wins [medGrill] overrideTable alwaysRules
      (mkClassified medGrill "Greek/Mediterranean") (by decide)
      { restaurant_name := " MEDITERRANEAN grill ", cuisine := "Greek/Mediterranean" }
      (by decide)⟩

theorem find?_first_true {β : Type} (p : β → Bool) :
    ∀ (pre : List β) (x : β) (post : List β), (∀ q ∈ pre, p q = false) →
      p x = true → (pre ++ x :: post).find? p = some x := by
  intro pre
  induction pre with
  | nil =>
    intro x post _ hx
    exact List.find?_cons_of_pos _ hx
  | cons q qs ih =>
    intro x post hall hx
    have hq : ¬ p q = true := by simp [hall q (List.mem_cons_self _ _)]
    rw [List.cons_append, List.find?_cons_of_neg _ hq]
    exact ih x post (fun q' h' => hall q' (List.mem_cons_of_mem _ h')) hx

/-- Claim C3: for a restaurant not covered by the override table, if the rule
cascade splits as `pre ++ (lbl, p) :: post` where no rule of `pre` matches the
case-folded name and `p` does match it, the emitted label is `lbl` — the
first matching rule in cascade order wins. -/
theorem first_matching_rule_wins (raw : List RawRestaurantRow)
    (lookup : List CuisineLookupEntry) (rules pre post : List CuisineRule)
    (lbl : String) (p : String → Bool) (c : ClassifiedRestaurant)
    (hc : c ∈ classified_restaurants raw lookup rules)
    (hover : overrideMatches lookup c.restaurant_name = [])
    (hrules : rules = pre ++ (lbl, p) :: post)
    (hpre : ∀ q ∈ pre, q.2 (lowerAscii c.restaurant_name) = false)
    (hp : p (lowerAscii c.restaurant_name) = true) :
    c.cuisine = lbl := by
  subst hrules
  rcases classified_mem_decomp hc with ⟨d, _, hcr⟩
  have hf := classifyRow_fields hcr
  rw [hf.1] at hover hpre hp
  unfold classifyRow at hcr
  rw [hover] at hcr
  simp only [List.isEmpty_nil, if_true] at hcr
  obtain rfl := List.mem_singleton.mp hcr
  show (firstRuleLabel (pre ++ (lbl, p) :: post) (lowerAscii d.RestaurantName)).getD
      "Unclassified" = lbl
  unfold firstRuleLabel
  rw [find?_first_true (fun rule => rule.2 (lowerAscii d.RestaurantName))
    pre (lbl, p) post hpre hp]
  rfl

/-- Witness for C3: `"JOE Pizza Palace"`, absent from the override table,
skips the non-matching first rule and is labelled by the matching second rule
`"Pizza"`, not by the later always-matching rule. -/
theorem first_matching_rule_wins_witness :
    mkClassified pizzaShop "Pizza" ∈ classified_restaurants [pizzaShop] [] c3rules ∧
      overrideMatches [] (mkClassified pizzaShop "Pizza").restaurant_name = [] ∧
      c3pat (lowerAscii (mkClassified pizzaShop "Pizza").restaurant_name) = true ∧
      (mkClassified pizzaShop "Pizza").cuisine = "Pizza" :=
  ⟨by decide, rfl, by decide,
    first_matching_rule_wins [pizzaShop] [] c3rules c3pre c3post "Pizza" c3pat
      (mkClassified pizzaShop "Pizza") (by decide) rfl rfl
      (by decide) (by decide)⟩

/-- Claim C5: when a sanitized (name, address) group consists of two rows
with distinct inspection dates (in either input order), every classified
output row of that group carries the borough, postcode, latitude and
longitude of the later-inspected row. -/
theorem dedup_keeps_later_row (raw : List RawRestaurantRow)
    (lookup : List CuisineLookupEntry) (rules : List CuisineRule)
    (k : String × String) (a b : RawRestaurantRow)
    (horder : restaurantGroup raw k = [a, b] ∨ restaurantGroup raw k = [b, a])
    (hdate : a.InspectedOn < b.InspectedOn) :
    ∀ c ∈ classified_restaurants raw lookup rules,
      (c.restaurant_name, c.address) = k →
        c.borough = b.Borough ∧ c.postcode = b.Postcode ∧
        c.latitude = b.Latitude.getD 0 ∧ c.longitude = b.Longitude.getD 0 := by
  intro c hc hk
  rcases classified_mem_decomp hc with ⟨d, hd, hcr⟩
  rw [hk] at hd
  unfold dedupedRow at hd
  have hdb : d = b := by
    rcases horder with h | h
    · rw [h] at hd
      have h1 : laterInspected a b = d := Option.some.inj hd
      rw [← h1]
      unfold laterInspected
      rw [if_pos hdate]
    · rw [h] at hd
      have h1 : laterInspected b a = d := Option.some.inj hd
      rw [← h1]
      unfold laterInspected
      rw [if_neg (lt_asymm hdate)]
  subst hdb
  have hf := classifyRow_fields hcr
  exact ⟨hf.2.2.1, hf.2.2.2.1, hf.2.2.2.2.1, hf.2.2.2.2.2⟩

/-- Witness for C5: of two `"Joes Pizza"` rows at the same address inspected
on 2024-01-01 and 2024-06-01, the surviving record carries the borough, postcode
and coordinates of the June row, postcode and coordinates. -/
theorem dedup_keeps_later_row_witness :
    (mkClassified joesJun "Unclassified").borough = joesJun.Borough ∧
      (mkClassified joesJun "Unclassified").postcode = joesJun.Postcode ∧
      (mkClassified joesJun "Unclassified").latitude = joesJun.Latitude.getD 0 ∧
      (mkClassified joesJun "Unclassified").longitude = joesJun.Longitude.getD 0 :=
  dedup_keeps_later_row [joesJan, joesJun] [] []
    ("Joes Pizza", "7 Carmine Street") joesJan joesJun
    (Or.inl (by decide)) (by decide)
    (mkClassified joesJun "Unclassified") (by decide) (by decide)

/-- Claim C10: a surviving (name, address) group contributes `max 1 k` rows
to the classified output, where `k` is the number of override entries whose
normalized name equals the normalized name of the group — a duplicate-keyed
override table fans one restaurant out into several output rows. -/
theorem override_fanout_count (raw : List RawRestaurantRow)
    (lookup : List CuisineLookupEntry) (rules : List CuisineRule)
    (k : String × String) (hk : k ∈ (sanitized raw).map groupKey) :
    ((classified_restaurants raw lookup rules).filter
        fun c => decide ((c.restaurant_name, c.address) = k)).length
      = max 1 (overrideMatches lookup k.1).length := by
  have hks : k ∈ distinctKeys ((sanitized raw).map groupKey) :=
    (mem_distinctKeys _ _).mpr hk
  have hfilter := flatMap_keyed_filter (classifyGroup raw lookup rules)
    (fun c => (c.restaurant_name, c.address)) _
    (distinctKeys_nodup _) (fun k' _ c hc => classifyGroup_key hc) k hks
  unfold classified_restaurants
  rw [hfilter]
  rcases List.mem_map.mp hk with ⟨r, hr, hkey⟩
  have hrg : r ∈ restaurantGroup raw k :=
    List.mem_filter.mpr ⟨hr, decide_eq_true hkey⟩
  rcases mostRecent_of_ne_nil (List.ne_nil_of_mem hrg) with ⟨d, hd⟩
  have hdk : groupKey d = k := restaurantGroup_key (mostRecent_mem hd)
  have hname : d.RestaurantName = k.1 := congrArg Prod.fst hdk
  simp only [classifyGroup, dedupedRow, hd]
  unfold classifyRow
  rw [hname]
  by_cases hempty : (overrideMatches lookup k.1).isEmpty
  · rw [if_pos hempty, List.isEmpty_iff.mp hempty]
    rfl
  · rw [if_neg hempty, List.length_map]
    have hpos : 1 ≤ (overrideMatches lookup k.1).length := by
      cases hcase : overrideMatches lookup k.1 with
      | nil =>
        rw [hcase] at hempty
        exact absurd rfl hempty
      | cons x xs => simp
    exact (Nat.max_eq_right hpos).symm

/-- Witness for C10: the duplicate-keyed override table fans the single
`"Acme Cafe"` group out into `max 1 2 = 2` output rows. -/
theorem override_fanout_count_witness :
    ((classified_restaurants [rowDupKeyed] dupLookup []).filter
        fun c => decide ((c.restaurant_name, c.address)
          = (("Acme Cafe", "1 Main Street") : String × String))).length
      = max 1 (overrideMatches dupLookup "Acme Cafe").length :=
  override_fanout_count [rowDupKeyed] dupLookup []
    ("Acme Cafe", "1 Main Street") (by decide)

/-- Claim C4 counterexample: with an override table holding two entries for
the same normalized key, a single sanitized (name, address) group produces
two distinct classified records sharing the same (name, address) pair, so
the output is not unique per pair. -/
theorem dedup_unique_counterexample :
    ∃ c1 ∈ classified_restaurants [rowDupKeyed] dupLookup [],
      ∃ c2 ∈ classified_restaurants [rowDupKeyed] dupLookup [],
        c1.restaurant_name = c2.restaurant_name ∧ c1.address = c2.address ∧
          c1 ≠ c2 := by
  decide

theorem length_overrideMatches_le_one (name : String) :
    ∀ lookup : List CuisineLookupEntry,
      (lookup.map fun e => normName e.restaurant_name).Nodup →
      (overrideMatches lookup name).length ≤ 1 := by
  intro lookup
  induction lookup with
  | nil =>
    intro _
    simp [overrideMatches]
  | cons e t ih =>
    intro hnd
    rw [List.map_cons, List.nodup_cons] at hnd
    unfold overrideMatches
    rw [List.filter_cons]
    by_cases h : normName name = normName e.restaurant_name
    · rw [if_pos (by simpa using h)]
      have ht : t.filter (fun e2 => decide (normName name = normName e2.restaurant_name))
          = [] := by
        apply List.filter_eq_nil_iff.mpr
        intro e2 he2 hcon
        have h2 : normName name = normName e2.restaurant_name := of_decide_eq_true hcon
        have h3 : normName e.restaurant_name ∈ t.map fun x => normName x.restaurant_name := by
          rw [h.symm.trans h2]
          exact List.mem_map_of_mem _ he2
        exact hnd.1 h3
      rw [ht]
      simp
    · rw [if_neg (by simpa using h)]
      exact ih hnd.2

/-- Claim C4 amended: provided no two override-table entries share the same
normalized (trimmed, case-folded) name, no two classified output records
share the same (name, address) pair. -/
theorem dedup_unique_of_nodup_lookup (raw : List RawRestaurantRow)
    (lookup : List CuisineLookupEntry) (rules : List CuisineRule)
    (hnd : (lookup.map fun e => normName e.restaurant_name).Nodup) :
    ((classified_restaurants raw lookup rules).map
        fun c => (c.restaurant_name, c.address)).Nodup := by
  unfold classified_restaurants
  apply nodup_map_flatMap_keyed _ _ _ (distinctKeys_nodup _)
    (fun k _ c hc => classifyGroup_key hc)
  intro k _
  cases hd : dedupedRow raw k with
  | none => simp [classifyGroup, hd]
  | some d =>
    simp only [classifyGroup, hd]
    unfold classifyRow
    by_cases hempty : (overrideMatches lookup d.RestaurantName).isEmpty
    · rw [if_pos hempty]
      simp
    · rw [if_neg hempty, List.length_map]
      exact length_overrideMatches_le_one d.RestaurantName lookup hnd

/-- Witness for C4 amended: with a duplicate-free override table the
classified output of a three-row input has pairwise distinct
(name, address) pairs. -/
theorem dedup_unique_of_nodup_lookup_witness :
    ((classified_restaurants [joesJan, joesJun, rowDupKeyed] overrideTable []).map
        fun c => (c.restaurant_name, c.address)).Nodup :=
  dedup_unique_of_nodup_lookup [joesJan, joesJun, rowDupKeyed] overrideTable []
    (by decide)

theorem consolidateComplex_key {stops : List RawStationStop} {cid : String}
    {t : StationComplex} (h : t ∈ consolidateComplex stops cid) :
    t.complex_id = cid := by
  unfold consolidateComplex at h
  cases hg : stops.filter (fun s => decide (s.complexId = cid)) with
  | nil =>
    rw [hg] at h
    cases h
  | cons g gs =>
    rw [hg] at h
    obtain rfl := List.mem_singleton.mp h
    rfl

/-- Claim C7: for every complex identifier present in the stop input, the
consolidated output holds exactly one station record; its stop name is the
first stop name encountered for the group, its coordinates are the
arithmetic means of the member coordinates, and its route string joins the
distinct route labels of the members, sorted strictly increasing, with
single spaces. -/
theorem station_consolidation_spec (stops : List RawStationStop) (cid : String)
    (g : RawStationStop) (gs : List RawStationStop)
    (hgroup : stops.filter (fun s => decide (s.complexId = cid)) = g :: gs) :
    ∃ sc : StationComplex,
      (subway_stations stops).filter (fun t => decide (t.complex_id = cid)) = [sc] ∧
      sc.stop_name = g.stopName ∧
      sc.latitude = ((g :: gs).map fun s => s.gtfsLatitude).sum
        / ((g :: gs).length : ℚ) ∧
      sc.longitude = ((g :: gs).map fun s => s.gtfsLongitude).sum
        / ((g :: gs).length : ℚ) ∧
      ∃ rl : List String, rl.Sorted (· < ·) ∧
        (∀ x, x ∈ rl ↔ x ∈ (g :: gs).map fun s => s.daytimeRoutes) ∧
        sc.all_routes = String.intercalate " " rl := by
  have hmemg : g ∈ stops.filter (fun s => decide (s.complexId = cid)) := by
    rw [hgroup]
    exact List.mem_cons_self _ _
  have hcid : cid ∈ stops.map fun s => s.complexId := by
    have hg1 := List.mem_filter.mp hmemg
    have hgc : g.complexId = cid := of_decide_eq_true hg1.2
    exact hgc ▸ List.mem_map_of_mem _ hg1.1
  have hks : cid ∈ distinctKeys (stops.map fun s => s.complexId) :=
    (mem_distinctKeys _ _).mpr hcid
  have hfilter := flatMap_keyed_filter (consolidateComplex stops)
    (fun t => t.complex_id) _ (distinctKeys_nodup _)
    (fun k _ t ht => consolidateComplex_key ht) cid hks
  unfold subway_stations
  rw [hfilter]
  unfold consolidateComplex
  rw [hgroup]
  refine ⟨_, rfl, rfl, rfl, rfl, ?_⟩
  have hsorted := List.sorted_insertionSort (α := String) (· ≤ ·)
    (distinctKeys (List.map (fun s : RawStationStop => s.daytimeRoutes) (g :: gs)))
  have hperm := List.perm_insertionSort (α := String) (· ≤ ·)
    (distinctKeys (List.map (fun s : RawStationStop => s.daytimeRoutes) (g :: gs)))
  have hnd : (List.insertionSort (α := String) (· ≤ ·)
      (distinctKeys (List.map (fun s : RawStationStop => s.daytimeRoutes)
        (g :: gs)))).Nodup :=
    hperm.nodup_iff.mpr (distinctKeys_nodup _)
  refine ⟨List.insertionSort (α := String) (· ≤ ·)
    (distinctKeys (List.map (fun s : RawStationStop => s.daytimeRoutes) (g :: gs))),
    (hsorted.and hnd).imp (fun h => lt_of_le_of_ne h.1 h.2), ?_, rfl⟩
  intro x
  rw [hperm.mem_iff, mem_distinctKeys]

/-- Witness for C7: two stops of complex `"101"` with routes `"A"` and `"C"`
consolidate into one record with the name of the first stop, the mean
coordinates, and the merged sorted route set. -/
theorem station_consolidation_spec_witness :
    ∃ sc : StationComplex,
      (subway_stations [stopUnionN, stopUnionS]).filter
          (fun t => decide (t.complex_id = "101")) = [sc] ∧
      sc.stop_name = stopUnionN.stopName ∧
      sc.latitude = (([stopUnionN, stopUnionS] : List RawStationStop).map
          fun s => s.gtfsLatitude).sum
        / (([stopUnionN, stopUnionS] : List RawStationStop).length : ℚ) ∧
      sc.longitude = (([stopUnionN, stopUnionS] : List RawStationStop).map
          fun s => s.gtfsLongitude).sum
        / (([stopUnionN, stopUnionS] : List RawStationStop).length : ℚ) ∧
      ∃ rl : List String, rl.Sorted (· < ·) ∧
        (∀ x, x ∈ rl ↔ x ∈ ([stopUnionN, stopUnionS] : List RawStationStop).map
          fun s => s.daytimeRoutes) ∧
        sc.all_routes = String.intercalate " " rl :=
  station_consolidation_spec [stopUnionN, stopUnionS] "101" stopUnionN
    [stopUnionS] (by decide)
